import Mathlib

/-!
Verification of the multi-armed-bandit simulation core of the repository
(notebook `02_Multi_Armed_Bandits.ipynb`).

The embedding is a faithful functional translation of the notebook's Python:
probabilities, value estimates and uniform draws are modelled as rationals
(the Python code uses floats; all claims are stated up to the tolerance the
spec allows, and the rational model computes the float expressions exactly),
numpy arrays as lists, and numpy's process-wide random source as an explicit
stream of draws threaded through the functions that consume it.
-/

namespace Bandits

/-- Indexing a numpy array `xs` with a possibly negative Python index `i`:
`xs[i]` is `xs[i]` for `0 <= i < len xs`, `xs[len xs + i]` for
`-len xs <= i < 0`, and raises `IndexError` (here: `none`) otherwise. -/
def npGet (xs : List ℚ) (i : ℤ) : Option ℚ :=
  if 0 ≤ i then xs[i.toNat]?
  else if 0 ≤ (xs.length : ℤ) + i then xs[((xs.length : ℤ) + i).toNat]?
  else none

/-- The shared random source: `np.random`'s stream of uniform draws in `[0,1)`
together with a cursor marking how many draws have been consumed. -/
structure RandState where
  stream : ℕ → ℚ
  cursor : ℕ

/-- `np.random.rand()`: return the next uniform draw and advance the cursor. -/
def RandState.rand (g : RandState) : ℚ × RandState :=
  (g.stream g.cursor, ⟨g.stream, g.cursor + 1⟩)

/-- The plain `BernoulliBandit` class: its only attributes are the success
probabilities `p` (and `k = len p`); it holds no step counter and no horizon. -/
structure BernoulliBandit where
  p : List ℚ

/-- `BernoulliBandit.k`: the number of arms, `len(p)`. -/
def BernoulliBandit.k (b : BernoulliBandit) : ℕ := b.p.length

/-- `BernoulliBandit.step(action)`: `return 1 if np.random.rand() < self.p[action]
else 0`, with the uniform draw `u` passed explicitly. `none` models the
`IndexError` numpy raises when `action` is out of range. -/
def BernoulliBandit.step (b : BernoulliBandit) (action : ℤ) (u : ℚ) : Option ℕ :=
  (npGet b.p action).map (fun pa => if u < pa then 1 else 0)

/-- `BernoulliBandit.step(action)` with the random source threaded through:
Python evaluates `np.random.rand()` before indexing `self.p[action]`, so the
draw is consumed first. -/
def BernoulliBandit.stepR (b : BernoulliBandit) (action : ℤ) (g : RandState) :
    Option (ℕ × RandState) :=
  let ug := g.rand
  (npGet b.p action).map (fun pa => (if ug.1 < pa then 1 else 0, ug.2))

/-- The reward the bandit produces for an in-range arm `a` and draw `u`. -/
def banditReward (p : List ℚ) (a : ℕ) (u : ℚ) : ℕ :=
  if u < p.getD a 0 then 1 else 0

theorem npGet_in_range (xs : List ℚ) (a : ℕ) (h : a < xs.length) :
    npGet xs (a : ℤ) = some (xs.getD a 0) := by
  simp [npGet, List.getElem?_eq_getElem h, List.getD_eq_getElem?_getD,
    List.getElem?_eq_getElem h]

theorem step_in_range (p : List ℚ) (a : ℕ) (u : ℚ) (h : a < p.length) :
    BernoulliBandit.step ⟨p⟩ (a : ℤ) u = some (banditReward p a u) := by
  simp [BernoulliBandit.step, npGet_in_range p a h, banditReward]

/-- `np.argmax`: the first index attaining the maximum of the list
(numpy breaks ties by returning the lowest such index); `0` on `[]`. -/
def argmax : List ℚ → ℕ
  | [] => 0
  | [_] => 0
  | x :: y :: rest =>
    if x < (y :: rest).getD (argmax (y :: rest)) 0 then argmax (y :: rest) + 1 else 0

theorem argmax_lt_length (xs : List ℚ) (h : xs ≠ []) : argmax xs < xs.length := by
  induction xs with
  | nil => simp at h
  | cons x rest ih =>
    cases rest with
    | nil => simp [argmax]
    | cons y t =>
      rw [argmax]
      split
      · have := ih (by simp)
        simpa using Nat.succ_lt_succ this
      · simp

theorem argmax_is_max (xs : List ℚ) (j : ℕ) (hj : j < xs.length) :
    xs.getD j 0 ≤ xs.getD (argmax xs) 0 := by
  induction xs generalizing j with
  | nil => simp at hj
  | cons x rest ih =>
    cases rest with
    | nil =>
      have hj0 : j = 0 := Nat.lt_one_iff.mp (by simpa using hj)
      subst hj0
      simp [argmax]
    | cons y t =>
      rw [argmax]
      split
      · cases j with
        | zero =>
          rename_i hlt
          simpa using le_of_lt hlt
        | succ m =>
          have := ih m (by simpa using hj)
          simpa using this
      · rename_i hge
        push_neg at hge
        cases j with
        | zero => simp
        | succ m =>
          have h1 := ih m (by simpa using hj)
          simpa using le_trans h1 hge

theorem argmax_first (xs : List ℚ) (j : ℕ) (hj : j < argmax xs) :
    xs.getD j 0 < xs.getD (argmax xs) 0 := by
  induction xs generalizing j with
  | nil => simp [argmax] at hj
  | cons x rest ih =>
    cases rest with
    | nil => simp [argmax] at hj
    | cons y t =>
      rw [argmax] at hj ⊢
      split
      · rename_i hlt
        cases j with
        | zero => simpa using hlt
        | succ m =>
          rw [if_pos hlt] at hj
          have := ih m (Nat.lt_of_succ_lt_succ hj)
          simpa using this
      · rename_i hge
        rw [if_neg hge] at hj
        exact absurd hj (Nat.not_lt_zero j)

/-! ### List helpers used by the run invariants -/

theorem getD_set_self {α : Type} (l : List α) (i : ℕ) (v d : α) (h : i < l.length) :
    (l.set i v).getD i d = v := by
  induction l generalizing i with
  | nil => simp at h
  | cons x xs ih =>
    cases i with
    | zero => rfl
    | succ n => simpa using ih n (by simpa using h)

theorem getD_set_ne {α : Type} (l : List α) (i j : ℕ) (v d : α) (h : i ≠ j) :
    (l.set i v).getD j d = l.getD j d := by
  induction l generalizing i j with
  | nil => simp
  | cons x xs ih =>
    cases i with
    | zero =>
      cases j with
      | zero => exact absurd rfl h
      | succ m => simp
    | succ n =>
      cases j with
      | zero => simp
      | succ m => simpa using ih n m (fun hh => h (by rw [hh]))

theorem getD_replicate {α : Type} (k a : ℕ) (x : α) :
    (List.replicate k x).getD a x = x := by
  induction k generalizing a with
  | zero => simp
  | succ n ih =>
    cases a with
    | zero => rfl
    | succ m => simp [List.replicate_succ, ih m]

theorem sum_set_getD_add (l : List ℕ) (i : ℕ) (h : i < l.length) :
    (l.set i (l.getD i 0 + 1)).sum = l.sum + 1 := by
  induction l generalizing i with
  | nil => simp at h
  | cons x xs ih =>
    cases i with
    | zero => simp [List.getD_cons_zero]; omega
    | succ n =>
      have := ih n (by simpa using h)
      simp only [List.getD_cons_succ, List.set_cons_succ, List.sum_cons, this]
      omega

/-! ### The epsilon-greedy policy and driver loop -/

/-- `epsilon_greedy`'s per-round action selection:
`if np.random.rand() < epsilon: action = np.random.randint(k) else: action =
np.argmax(Q)`. `coin` is the consumed uniform draw in `[0,1)` and `idx` the
consumed `randint(k)` draw (uniform over `[0,k)`); the random branch is taken
exactly when `coin < epsilon`, which for a uniform coin happens with
probability `epsilon`. -/
def selectAction (eps : ℚ) (Q : List ℚ) (coin : ℚ) (idx : ℕ) : ℕ :=
  if coin < eps then idx else argmax Q

/-- The random inputs one round of `epsilon_greedy` can consume: the
explore/exploit coin, the `randint(k)` value, and the bandit's uniform draw. -/
structure Draw where
  coin : ℚ
  idx : ℕ
  u : ℚ

/-- The mutable state of one `epsilon_greedy` run. `hist` records each round's
(chosen arm, observed reward) pair — the spec's round record; the source stores
the reward components as `rewards_history`. -/
structure EGState where
  Q : List ℚ
  N : List ℕ
  hist : List (ℕ × ℕ)

/-- `Q = np.zeros(k); N = np.zeros(k); rewards_history = []`. -/
def egInit (k : ℕ) : EGState :=
  ⟨List.replicate k 0, List.replicate k 0, []⟩

/-- The update half of one `epsilon_greedy` round, for chosen arm `a` and
observed reward `r`: `N[action] += 1; Q[action] += (reward - Q[action]) /
N[action]` — the count is incremented strictly before it is used as the
divisor — followed by `rewards_history.append(reward)`. -/
def egUpdate (st : EGState) (a r : ℕ) : EGState :=
  { Q := st.Q.set a
      (st.Q.getD a 0 + ((r : ℚ) - st.Q.getD a 0) / ((st.N.getD a 0 + 1 : ℕ) : ℚ)),
    N := st.N.set a (st.N.getD a 0 + 1),
    hist := st.hist ++ [(a, r)] }

/-- One iteration of the `epsilon_greedy` loop: select an action, step the
bandit, then apply the incremental update. -/
def egRound (eps : ℚ) (p : List ℚ) (st : EGState) (d : Draw) : EGState :=
  egUpdate st (selectAction eps st.Q d.coin d.idx)
    (banditReward p (selectAction eps st.Q d.coin d.idx) d.u)

/-- `epsilon_greedy(bandit, num_steps, epsilon)`: run the loop once per draw
record (the source runs `num_steps` rounds, consuming its random inputs from
the process-wide source). -/
def egRun (eps : ℚ) (p : List ℚ) (draws : List Draw) : EGState :=
  List.foldl (egRound eps p) (egInit p.length) draws

/-- The rewards credited to arm `a` in a run history, in order. -/
def armRewards (a : ℕ) (hist : List (ℕ × ℕ)) : List ℕ :=
  (hist.filter (fun pr => pr.1 == a)).map (fun pr => pr.2)

/-- How many rounds of the history selected arm `a`. -/
def armSelections (a : ℕ) (hist : List (ℕ × ℕ)) : ℕ :=
  (armRewards a hist).length

/-- The total reward credited to arm `a` in a run history, as a rational. -/
def armRewardSum (a : ℕ) (hist : List (ℕ × ℕ)) : ℚ :=
  ((armRewards a hist).map (fun r => (r : ℚ))).sum

theorem armRewards_append (a b r : ℕ) (h : List (ℕ × ℕ)) :
    armRewards a (h ++ [(b, r)]) = armRewards a h ++ (if b = a then [r] else []) := by
  by_cases hba : b = a
  · subst hba
    simp [armRewards, List.filter_append]
  · simp [armRewards, List.filter_append, hba]

theorem armSelections_append_self (b r : ℕ) (h : List (ℕ × ℕ)) :
    armSelections b (h ++ [(b, r)]) = armSelections b h + 1 := by
  unfold armSelections
  rw [armRewards_append b b r h]
  simp

theorem armSelections_append_ne (b a r : ℕ) (hab : a ≠ b) (h : List (ℕ × ℕ)) :
    armSelections b (h ++ [(a, r)]) = armSelections b h := by
  unfold armSelections
  rw [armRewards_append b a r h]
  simp [hab]

theorem armRewardSum_append_self (b r : ℕ) (h : List (ℕ × ℕ)) :
    armRewardSum b (h ++ [(b, r)]) = armRewardSum b h + (r : ℚ) := by
  unfold armRewardSum
  rw [armRewards_append b b r h]
  simp

theorem armRewardSum_append_ne (b a r : ℕ) (hab : a ≠ b) (h : List (ℕ × ℕ)) :
    armRewardSum b (h ++ [(a, r)]) = armRewardSum b h := by
  unfold armRewardSum
  rw [armRewards_append b a r h]
  simp [hab]

/-! ### The epsilon-greedy run invariant -/

/-- Invariant of an `epsilon_greedy` run with `k` arms: the vectors keep their
length, the counts sum to the number of rounds, every recorded round chose an
arm in `[0,k)` and saw a 0/1 reward, each count equals the number of rounds
that chose that arm, each estimate times its count equals the total reward that
arm received (so the estimate is the per-arm sample mean), never-pulled arms
have estimate `0`, and every estimate lies in `[0,1]`. -/
def EGInv (k : ℕ) (st : EGState) : Prop :=
  st.Q.length = k ∧ st.N.length = k ∧
  st.N.sum = st.hist.length ∧
  (∀ pr ∈ st.hist, pr.1 < k ∧ pr.2 ≤ 1) ∧
  (∀ a : ℕ, st.N.getD a 0 = armSelections a st.hist) ∧
  (∀ a : ℕ, st.Q.getD a 0 * (st.N.getD a 0 : ℚ) = armRewardSum a st.hist) ∧
  (∀ a : ℕ, st.N.getD a 0 = 0 → st.Q.getD a 0 = 0) ∧
  (∀ a : ℕ, 0 ≤ st.Q.getD a 0 ∧ st.Q.getD a 0 ≤ 1)

theorem update_algebra (q r : ℚ) (n : ℕ) :
    (q + (r - q) / ((n + 1 : ℕ) : ℚ)) * ((n + 1 : ℕ) : ℚ) = q * n + r := by
  have hpos : ((n : ℚ) + 1) ≠ 0 := by positivity
  push_cast
  field_simp
  ring

theorem update_bounds (q r : ℚ) (n : ℕ) (hq0 : 0 ≤ q) (hq1 : q ≤ 1)
    (hr0 : 0 ≤ r) (hr1 : r ≤ 1) :
    0 ≤ q + (r - q) / ((n + 1 : ℕ) : ℚ) ∧ q + (r - q) / ((n + 1 : ℕ) : ℚ) ≤ 1 := by
  have hpos : (0 : ℚ) < (n : ℚ) + 1 := by positivity
  have heq : q + (r - q) / ((n + 1 : ℕ) : ℚ) = (q * n + r) / ((n : ℚ) + 1) := by
    push_cast
    field_simp
    ring
  constructor
  · rw [heq]
    apply div_nonneg _ (le_of_lt hpos)
    have hqn : 0 ≤ q * n := mul_nonneg hq0 (by positivity)
    linarith
  · rw [heq]
    rw [div_le_one hpos]
    have h1 : q * n ≤ 1 * n := mul_le_mul_of_nonneg_right hq1 (by positivity)
    linarith

theorem egUpdate_inv (k : ℕ) (st : EGState) (a r : ℕ)
    (ha : a < k) (hr : r ≤ 1) (hst : EGInv k st) :
    EGInv k (egUpdate st a r) := by
  obtain ⟨hQl, hNl, hsum, hhist, hN, hQN, hQ0, hQb⟩ := hst
  have haN : a < st.N.length := by omega
  have haQ : a < st.Q.length := by omega
  refine ⟨by simp [egUpdate, hQl], by simp [egUpdate, hNl], ?_, ?_, ?_, ?_, ?_, ?_⟩
  · simp only [egUpdate]
    rw [sum_set_getD_add st.N a haN]
    simp [hsum]
  · simp only [egUpdate]
    intro pr hpr
    rcases List.mem_append.mp hpr with hmem | hmem
    · exact hhist pr hmem
    · have hpr2 := List.mem_singleton.mp hmem
      subst hpr2
      exact ⟨ha, hr⟩
  · intro b
    simp only [egUpdate]
    by_cases hba : b = a
    · subst hba
      rw [getD_set_self st.N b _ 0 haN, armSelections_append_self b r st.hist, hN b]
    · rw [getD_set_ne st.N a b _ 0 (Ne.symm hba),
        armSelections_append_ne b a r (Ne.symm hba) st.hist]
      exact hN b
  · intro b
    simp only [egUpdate]
    by_cases hba : b = a
    · subst hba
      rw [getD_set_self st.Q b _ 0 haQ, getD_set_self st.N b _ 0 haN,
        armRewardSum_append_self b r st.hist, update_algebra, hQN b]
    · rw [getD_set_ne st.Q a b _ 0 (Ne.symm hba), getD_set_ne st.N a b _ 0 (Ne.symm hba),
        armRewardSum_append_ne b a r (Ne.symm hba) st.hist]
      exact hQN b
  · intro b hb0
    simp only [egUpdate] at hb0 ⊢
    by_cases hba : b = a
    · subst hba
      rw [getD_set_self st.N b _ 0 haN] at hb0
      omega
    · rw [getD_set_ne st.N a b _ 0 (Ne.symm hba)] at hb0
      rw [getD_set_ne st.Q a b _ 0 (Ne.symm hba)]
      exact hQ0 b hb0
  · intro b
    simp only [egUpdate]
    by_cases hba : b = a
    · subst hba
      rw [getD_set_self st.Q b _ 0 haQ]
      exact update_bounds _ _ _ (hQb b).1 (hQb b).2 (by positivity) (by exact_mod_cast hr)
    · rw [getD_set_ne st.Q a b _ 0 (Ne.symm hba)]
      exact hQb b

theorem egRound_inv (eps : ℚ) (p : List ℚ) (st : EGState) (d : Draw)
    (hk : 1 ≤ p.length) (hidx : d.idx < p.length) (hst : EGInv p.length st) :
    EGInv p.length (egRound eps p st d) := by
  have hQl := hst.1
  have ha : selectAction eps st.Q d.coin d.idx < p.length := by
    unfold selectAction
    split
    · exact hidx
    · have hne : st.Q ≠ [] := by
        intro hnil
        rw [hnil] at hQl
        simp at hQl
        omega
      have h2 := argmax_lt_length st.Q hne
      omega
  have hr : banditReward p (selectAction eps st.Q d.coin d.idx) d.u ≤ 1 := by
    unfold banditReward
    split <;> omega
  exact egUpdate_inv p.length st _ _ ha hr hst

theorem egInit_inv (k : ℕ) : EGInv k (egInit k) := by
  refine ⟨by simp [egInit], by simp [egInit], by simp [egInit], by simp [egInit],
    ?_, ?_, ?_, ?_⟩
  · intro b
    simp [egInit, armSelections, armRewards, getD_replicate]
  · intro b
    simp [egInit, armRewardSum, armRewards, getD_replicate]
  · intro b _
    simp [egInit, getD_replicate]
  · intro b
    simp [egInit, getD_replicate]

theorem egFold_inv (eps : ℚ) (p : List ℚ) (draws : List Draw) (st : EGState)
    (hk : 1 ≤ p.length) (hidx : ∀ d ∈ draws, d.idx < p.length)
    (hst : EGInv p.length st) :
    EGInv p.length (List.foldl (egRound eps p) st draws) := by
  induction draws generalizing st with
  | nil => simpa using hst
  | cons d rest ih =>
    simp only [List.foldl_cons]
    exact ih (egRound eps p st d) (fun d2 hd2 => hidx d2 (List.mem_cons_of_mem d hd2))
      (egRound_inv eps p st d hk (hidx d (List.mem_cons_self d rest)) hst)

theorem egRun_inv (eps : ℚ) (p : List ℚ) (draws : List Draw)
    (hk : 1 ≤ p.length) (hidx : ∀ d ∈ draws, d.idx < p.length) :
    EGInv p.length (egRun eps p draws) :=
  egFold_inv eps p draws (egInit p.length) hk hidx (egInit_inv p.length)

theorem egFold_hist_length (eps : ℚ) (p : List ℚ) (draws : List Draw) (st : EGState) :
    (List.foldl (egRound eps p) st draws).hist.length
      = st.hist.length + draws.length := by
  induction draws generalizing st with
  | nil => simp
  | cons d rest ih =>
    simp only [List.foldl_cons]
    rw [ih]
    simp [egRound, egUpdate]
    omega

theorem egRun_hist_length (eps : ℚ) (p : List ℚ) (draws : List Draw) :
    (egRun eps p draws).hist.length = draws.length := by
  simp [egRun, egFold_hist_length, egInit]

theorem getD_replicate_lt {α : Type} (k a : ℕ) (x d : α) (h : a < k) :
    (List.replicate k x).getD a d = x := by
  induction k generalizing a with
  | zero => omega
  | succ n ih =>
    cases a with
    | zero => rfl
    | succ m => simpa [List.replicate_succ] using ih m (by omega)

theorem sum_armSelections (k : ℕ) (hist : List (ℕ × ℕ))
    (h : ∀ pr ∈ hist, pr.1 < k) :
    Finset.sum (Finset.range k) (fun i => armSelections i hist) = hist.length := by
  induction hist with
  | nil => simp [armSelections, armRewards]
  | cons pr rest ih =>
    have h1 : pr.1 < k := h pr (List.mem_cons_self pr rest)
    have h2 : ∀ q ∈ rest, q.1 < k := fun q hq => h q (List.mem_cons_of_mem pr hq)
    have hcons : ∀ i, armSelections i (pr :: rest)
        = armSelections i rest + (if pr.1 = i then 1 else 0) := by
      intro i
      unfold armSelections armRewards
      by_cases hpi : pr.1 = i
      · simp [List.filter_cons, hpi]
      · simp [List.filter_cons, hpi]
    simp only [hcons]
    rw [Finset.sum_add_distrib, ih h2, Finset.sum_ite_eq]
    simp [Finset.mem_range.mpr h1]

/-! ### Thompson sampling: `run_thompson_search` over a `SearchBandit` -/

/-- The random inputs one `run_thompson_search` round consumes: the query
context from `env.get_context()` (a `randn` vector), the per-arm posterior
samples from `np.random.beta(alpha, beta)` (one Beta sample per arm), and the
environment's uniform draw. -/
structure TSDraw where
  ctx : List ℚ
  samples : List ℚ
  u : ℚ

/-- The state of a `run_thompson_search` run: the Beta pseudo-counts and the
round record of (chosen arm, observed reward) pairs; the source stores the
reward components as `rewards_history`. -/
structure TSState where
  alpha : List ℕ
  beta : List ℕ
  hist : List (ℕ × ℕ)

/-- `alpha = np.ones(k); beta = np.ones(k); rewards_history = []`. -/
def tsInit (k : ℕ) : TSState :=
  ⟨List.replicate k 1, List.replicate k 1, []⟩

/-- The update half of one `run_thompson_search` round:
`if reward == 1: alpha[action] += 1 else: beta[action] += 1`, followed by
`rewards_history.append(reward)`. -/
def tsUpdate (st : TSState) (a r : ℕ) : TSState :=
  if r = 1 then
    { st with alpha := st.alpha.set a (st.alpha.getD a 0 + 1),
              hist := st.hist ++ [(a, r)] }
  else
    { st with beta := st.beta.set a (st.beta.getD a 0 + 1),
              hist := st.hist ++ [(a, r)] }

/-- One iteration of the `run_thompson_search` loop:
`sampled_q = np.random.beta(alpha, beta); action = np.argmax(sampled_q)`, then
the `SearchBandit` environment returns `1 if np.random.rand() < p else 0` with
`p = sigmoid(strategy_weights[action] . query_context)` — `clickProb` stands
for that sigmoid expression, whose value is a real number with no exact
rational form; every property proved about the run depends only on the 0/1
outcome of the comparison — and finally the posterior update is applied. -/
def tsRound (clickProb : ℕ → List ℚ → ℚ) (st : TSState) (d : TSDraw) : TSState :=
  tsUpdate st (argmax d.samples)
    (if d.u < clickProb (argmax d.samples) d.ctx then 1 else 0)

/-- `run_thompson_search(env)`: run the loop once per draw record (the source
runs `num_queries` rounds, consuming its random inputs from the process-wide
source). -/
def tsRun (clickProb : ℕ → List ℚ → ℚ) (k : ℕ) (draws : List TSDraw) : TSState :=
  List.foldl (tsRound clickProb) (tsInit k) draws

/-- Invariant of a `run_thompson_search` run with `k` arms: the pseudo-count
vectors keep their length, every recorded round chose an arm in `[0,k)` and
saw a 0/1 reward, and each arm's pseudo-counts sum to `2` plus the number of
rounds that chose it. -/
def TSInv (k : ℕ) (st : TSState) : Prop :=
  st.alpha.length = k ∧ st.beta.length = k ∧
  (∀ pr ∈ st.hist, pr.1 < k ∧ pr.2 ≤ 1) ∧
  (∀ i : ℕ, i < k → st.alpha.getD i 0 + st.beta.getD i 0 = 2 + armSelections i st.hist)

theorem tsUpdate_inv (k : ℕ) (st : TSState) (a r : ℕ)
    (ha : a < k) (hr : r ≤ 1) (hst : TSInv k st) :
    TSInv k (tsUpdate st a r) := by
  obtain ⟨hal, hbl, hhist, hab⟩ := hst
  have haA : a < st.alpha.length := by omega
  have haB : a < st.beta.length := by omega
  have hmem : ∀ pr ∈ st.hist ++ [(a, r)], pr.1 < k ∧ pr.2 ≤ 1 := by
    intro pr hpr
    rcases List.mem_append.mp hpr with hmm | hmm
    · exact hhist pr hmm
    · have hpr2 := List.mem_singleton.mp hmm
      subst hpr2
      exact ⟨ha, hr⟩
  unfold tsUpdate
  by_cases hr1 : r = 1
  · rw [if_pos hr1]
    refine ⟨by simp [hal], hbl, hmem, ?_⟩
    intro i hi
    dsimp only
    by_cases hia : i = a
    · subst hia
      rw [getD_set_self st.alpha i _ 0 haA, armSelections_append_self i r st.hist]
      have := hab i hi
      omega
    · rw [getD_set_ne st.alpha a i _ 0 (Ne.symm hia),
        armSelections_append_ne i a r (Ne.symm hia) st.hist]
      exact hab i hi
  · rw [if_neg hr1]
    refine ⟨hal, by simp [hbl], hmem, ?_⟩
    intro i hi
    dsimp only
    by_cases hia : i = a
    · subst hia
      rw [getD_set_self st.beta i _ 0 haB, armSelections_append_self i r st.hist]
      have := hab i hi
      omega
    · rw [getD_set_ne st.beta a i _ 0 (Ne.symm hia),
        armSelections_append_ne i a r (Ne.symm hia) st.hist]
      exact hab i hi

theorem tsRound_inv (clickProb : ℕ → List ℚ → ℚ) (k : ℕ) (st : TSState) (d : TSDraw)
    (hk : 1 ≤ k) (hs : d.samples.length = k) (hst : TSInv k st) :
    TSInv k (tsRound clickProb st d) := by
  have ha : argmax d.samples < k := by
    have hne : d.samples ≠ [] := by
      intro hnil
      rw [hnil] at hs
      simp at hs
      omega
    have h2 := argmax_lt_length d.samples hne
    omega
  have hr : (if d.u < clickProb (argmax d.samples) d.ctx then 1 else 0) ≤ 1 := by
    split <;> omega
  exact tsUpdate_inv k st _ _ ha hr hst

theorem tsInit_inv (k : ℕ) : TSInv k (tsInit k) := by
  refine ⟨by simp [tsInit], by simp [tsInit], by simp [tsInit], ?_⟩
  intro i hi
  show (List.replicate k 1).getD i 0 + (List.replicate k 1).getD i 0
    = 2 + armSelections i []
  rw [getD_replicate_lt k i 1 0 hi]
  simp [armSelections, armRewards]

theorem tsFold_inv (clickProb : ℕ → List ℚ → ℚ) (k : ℕ) (draws : List TSDraw)
    (st : TSState) (hk : 1 ≤ k) (hs : ∀ d ∈ draws, d.samples.length = k)
    (hst : TSInv k st) :
    TSInv k (List.foldl (tsRound clickProb) st draws) := by
  induction draws generalizing st with
  | nil => simpa using hst
  | cons d rest ih =>
    simp only [List.foldl_cons]
    exact ih (tsRound clickProb st d) (fun d2 hd2 => hs d2 (List.mem_cons_of_mem d hd2))
      (tsRound_inv clickProb k st d hk (hs d (List.mem_cons_self d rest)) hst)

theorem tsRun_inv (clickProb : ℕ → List ℚ → ℚ) (k : ℕ) (draws : List TSDraw)
    (hk : 1 ≤ k) (hs : ∀ d ∈ draws, d.samples.length = k) :
    TSInv k (tsRun clickProb k draws) :=
  tsFold_inv clickProb k draws (tsInit k) hk hs (tsInit_inv k)

theorem tsUpdate_hist (st : TSState) (a r : ℕ) :
    (tsUpdate st a r).hist = st.hist ++ [(a, r)] := by
  unfold tsUpdate
  split <;> rfl

theorem tsFold_hist_length (clickProb : ℕ → List ℚ → ℚ) (draws : List TSDraw)
    (st : TSState) :
    (List.foldl (tsRound clickProb) st draws).hist.length
      = st.hist.length + draws.length := by
  induction draws generalizing st with
  | nil => simp
  | cons d rest ih =>
    simp only [List.foldl_cons]
    rw [ih]
    simp [tsRound, tsUpdate_hist]
    omega

theorem tsRun_hist_length (clickProb : ℕ → List ℚ → ℚ) (k : ℕ) (draws : List TSDraw) :
    (tsRun clickProb k draws).hist.length = draws.length := by
  simp [tsRun, tsFold_hist_length, tsInit]

/-! ### The Gymnasium environment `BernoulliBanditEnv` -/

/-- The `BernoulliBanditEnv` Gym environment: success probabilities `p`, the
fixed horizon `num_steps`, and the internal step counter `current_step`
(the action and observation spaces are fixed derived data). `reset` and
`step` mutate only `current_step`. -/
structure BernoulliBanditEnv where
  p : List ℚ
  num_steps : ℕ
  current_step : ℕ

/-- The value `BernoulliBanditEnv.step` produces: the 5-tuple
`(obs, float(reward), done, False, info)` of the source (with `info` the empty
dict), together with the mutated environment. -/
structure StepOut where
  obs : ℚ
  reward : ℚ
  done : Bool
  truncated : Bool
  info : Unit
  env : BernoulliBanditEnv

/-- `reset()`: `self.current_step = 0`, return a dummy observation and
empty info. -/
def BernoulliBanditEnv.reset (env : BernoulliBanditEnv) : ℚ × BernoulliBanditEnv :=
  (0, { env with current_step := 0 })

/-- `BernoulliBanditEnv.step(action)`: draw the Bernoulli reward, then
`self.current_step += 1; done = (self.current_step >= self.num_steps)`, and
return the dummy observation, reward, flags and empty info. `none` models the
`IndexError` numpy raises on an out-of-range action. -/
def BernoulliBanditEnv.step (env : BernoulliBanditEnv) (action : ℤ) (u : ℚ) :
    Option StepOut :=
  (npGet env.p action).map (fun pa =>
    { obs := 0
      reward := if u < pa then 1 else 0
      done := decide (env.num_steps ≤ env.current_step + 1)
      truncated := false
      info := ()
      env := { env with current_step := env.current_step + 1 } })

theorem npGet_int_in_range (xs : List ℚ) (i : ℤ) (h0 : 0 ≤ i)
    (h1 : i < (xs.length : ℤ)) :
    npGet xs i = some (xs.getD i.toNat 0) := by
  have hi : i = (i.toNat : ℤ) := (Int.toNat_of_nonneg h0).symm
  rw [hi]
  exact npGet_in_range xs i.toNat (by omega)

theorem env_step_in_range (env : BernoulliBanditEnv) (action : ℤ) (u : ℚ)
    (h0 : 0 ≤ action) (h1 : action < (env.p.length : ℤ)) :
    env.step action u = some
      { obs := 0
        reward := if u < env.p.getD action.toNat 0 then 1 else 0
        done := decide (env.num_steps ≤ env.current_step + 1)
        truncated := false
        info := ()
        env := { env with current_step := env.current_step + 1 } } := by
  unfold BernoulliBanditEnv.step
  rw [npGet_int_in_range env.p action h0 h1]
  rfl

/-- Run a sequence of `step` calls on the environment, collecting each call's
returned `done` flag; `none` if any call raises. -/
def envDones (env : BernoulliBanditEnv) : List (ℤ × ℚ) → Option (List Bool)
  | [] => some []
  | au :: rest =>
    match env.step au.1 au.2 with
    | none => none
    | some out => (envDones out.env rest).map (fun ds => out.done :: ds)

theorem envDones_spec (p : List ℚ) (h c : ℕ) (ins : List (ℤ × ℚ))
    (hin : ∀ au ∈ ins, 0 ≤ au.1 ∧ au.1 < (p.length : ℤ)) :
    ∃ ds : List Bool, envDones ⟨p, h, c⟩ ins = some ds ∧ ds.length = ins.length ∧
      ∀ j, j < ds.length → ds.getD j false = decide (h ≤ c + j + 1) := by
  induction ins generalizing c with
  | nil =>
    refine ⟨[], rfl, rfl, ?_⟩
    intro j hj
    simp at hj
  | cons au rest ih =>
    have h1 := hin au (List.mem_cons_self au rest)
    have hstep := env_step_in_range ⟨p, h, c⟩ au.1 au.2 h1.1 h1.2
    obtain ⟨ds, hds, hlen, hspec⟩ :=
      ih (c + 1) (fun au2 hau2 => hin au2 (List.mem_cons_of_mem au hau2))
    refine ⟨decide (h ≤ c + 1) :: ds, ?_, by simp [hlen], ?_⟩
    · rw [envDones, hstep]
      simp only
      rw [hds]
      rfl
    · intro j hj
      cases j with
      | zero => simp
      | succ m =>
        have hm : m < ds.length := by simpa using hj
        have := hspec m hm
        have harith : c + 1 + m + 1 = c + (m + 1) + 1 := by omega
        simpa [harith] using this

/-! ### The claims -/

/-- C1: for the epsilon-greedy policy, after any run in which arm `a` received
rewards `r_1..r_n` (in order), the stored estimate `Q[a]` equals the arithmetic
mean of those rewards — exactly in the rational model, hence in particular
within the spec's tolerance of 1e-9 — and `N[a]` equals `n`; this is exact
because each update increments `N[a]` strictly before dividing by it. -/
theorem eg_estimate_is_sample_mean (eps : ℚ) (p : List ℚ) (draws : List Draw) (a : ℕ)
    (hk : 1 ≤ p.length) (hidx : ∀ d ∈ draws, d.idx < p.length) :
    (egRun eps p draws).N.getD a 0 = (armRewards a (egRun eps p draws).hist).length ∧
    (armRewards a (egRun eps p draws).hist ≠ [] →
      (egRun eps p draws).Q.getD a 0 =
        ((armRewards a (egRun eps p draws).hist).map (fun r => (r : ℚ))).sum /
          ((armRewards a (egRun eps p draws).hist).length : ℚ) ∧
      |(egRun eps p draws).Q.getD a 0 -
          ((armRewards a (egRun eps p draws).hist).map (fun r => (r : ℚ))).sum /
            ((armRewards a (egRun eps p draws).hist).length : ℚ)| ≤ 1 / 1000000000) := by
  obtain ⟨hQl, hNl, hsum, hhist, hN, hQN, hQ0, hQb⟩ := egRun_inv eps p draws hk hidx
  have hNa : (egRun eps p draws).N.getD a 0
      = (armRewards a (egRun eps p draws).hist).length := hN a
  refine ⟨hNa, ?_⟩
  intro hne
  have hlen : (armRewards a (egRun eps p draws).hist).length ≠ 0 :=
    fun h0 => hne (List.eq_nil_of_length_eq_zero h0)
  have hlenQ : ((armRewards a (egRun eps p draws).hist).length : ℚ) ≠ 0 := by
    exact_mod_cast hlen
  have hQNa := hQN a
  rw [hNa] at hQNa
  have hq : (egRun eps p draws).Q.getD a 0 =
      ((armRewards a (egRun eps p draws).hist).map (fun r => (r : ℚ))).sum /
        ((armRewards a (egRun eps p draws).hist).length : ℚ) := by
    rw [eq_div_iff hlenQ]
    exact hQNa
  refine ⟨hq, ?_⟩
  rw [hq, sub_self, abs_zero]
  norm_num

theorem eg_estimate_is_sample_mean_witness :
    (1 ≤ List.length [(1 : ℚ)] ∧ ∀ d ∈ [Draw.mk 0 0 0], d.idx < List.length [(1 : ℚ)]) ∧
    ((egRun 1 [1] [Draw.mk 0 0 0]).N.getD 0 0
        = (armRewards 0 (egRun 1 [1] [Draw.mk 0 0 0]).hist).length ∧
      (armRewards 0 (egRun 1 [1] [Draw.mk 0 0 0]).hist ≠ [] →
        (egRun 1 [1] [Draw.mk 0 0 0]).Q.getD 0 0 =
          ((armRewards 0 (egRun 1 [1] [Draw.mk 0 0 0]).hist).map (fun r => (r : ℚ))).sum /
            ((armRewards 0 (egRun 1 [1] [Draw.mk 0 0 0]).hist).length : ℚ) ∧
        |(egRun 1 [1] [Draw.mk 0 0 0]).Q.getD 0 0 -
            ((armRewards 0 (egRun 1 [1] [Draw.mk 0 0 0]).hist).map (fun r => (r : ℚ))).sum /
              ((armRewards 0 (egRun 1 [1] [Draw.mk 0 0 0]).hist).length : ℚ)|
          ≤ 1 / 1000000000)) :=
  ⟨⟨by decide, by decide⟩,
    eg_estimate_is_sample_mean 1 [1] [Draw.mk 0 0 0] 0 (by decide) (by decide)⟩

/-- C2: each round of epsilon-greedy selection takes the uniform-random branch
exactly when the coin (uniform in `[0,1)`) is below `epsilon` — so with
probability `epsilon` — in which case the action is the consumed
`randint(k)` value; otherwise it is `argmax(Q)`, the lowest index attaining
the maximum. With `epsilon = 0` the argmax branch is taken on every round and
with `epsilon = 1` the random branch is taken on every round, and the chosen
action is always in `[0,k)`. -/
theorem eg_select_action_spec (eps : ℚ) (Q : List ℚ) (coin : ℚ) (idx k : ℕ)
    (hc0 : 0 ≤ coin) (hc1 : coin < 1) (hidx : idx < k) (hQ : Q.length = k) :
    (coin < eps → selectAction eps Q coin idx = idx) ∧
    (¬ coin < eps → selectAction eps Q coin idx = argmax Q) ∧
    selectAction eps Q coin idx < k ∧
    (eps = 0 → selectAction eps Q coin idx = argmax Q) ∧
    (eps = 1 → selectAction eps Q coin idx = idx) ∧
    (∀ j, j < k → Q.getD j 0 ≤ Q.getD (argmax Q) 0) ∧
    (∀ j, j < argmax Q → Q.getD j 0 < Q.getD (argmax Q) 0) := by
  have hQne : Q ≠ [] := by
    intro hnil
    rw [hnil] at hQ
    simp at hQ
    omega
  have hargmax : argmax Q < k := by
    have := argmax_lt_length Q hQne
    omega
  refine ⟨?_, ?_, ?_, ?_, ?_, ?_, ?_⟩
  · intro h
    simp [selectAction, h]
  · intro h
    simp [selectAction, h]
  · unfold selectAction
    split
    · exact hidx
    · exact hargmax
  · intro he
    subst he
    simp [selectAction, not_lt.mpr hc0]
  · intro he
    subst he
    simp [selectAction, hc1]
  · intro j hj
    exact argmax_is_max Q j (by omega)
  · intro j hj
    exact argmax_first Q j hj

theorem eg_select_action_spec_witness :
    ((0 : ℚ) ≤ 0 ∧ (0 : ℚ) < 1 ∧ 1 < 2 ∧ List.length [(0 : ℚ), 1] = 2) ∧
    (((0 : ℚ) < 1 → selectAction 1 [0, 1] 0 1 = 1) ∧
      (¬ (0 : ℚ) < 1 → selectAction 1 [0, 1] 0 1 = argmax [0, 1]) ∧
      selectAction 1 [0, 1] 0 1 < 2 ∧
      ((1 : ℚ) = 0 → selectAction 1 [0, 1] 0 1 = argmax [0, 1]) ∧
      ((1 : ℚ) = 1 → selectAction 1 [0, 1] 0 1 = 1) ∧
      (∀ j, j < 2 → List.getD [(0 : ℚ), 1] j 0 ≤ List.getD [(0 : ℚ), 1] (argmax [0, 1]) 0) ∧
      (∀ j, j < argmax [(0 : ℚ), 1] →
        List.getD [(0 : ℚ), 1] j 0 < List.getD [(0 : ℚ), 1] (argmax [0, 1]) 0)) :=
  ⟨⟨by decide, by decide, by decide, by decide⟩,
    eg_select_action_spec 1 [0, 1] 0 1 2
      (by decide) (by decide) (by decide) (by decide)⟩

/-- C3 counterexample: with `k = 1`, calling `step(-1)` — an arm index outside
`[0, 1)` — does not fail: numpy's negative indexing silently reads `p[-1]` and
the call returns a reward, so not every out-of-range index fails. -/
theorem step_negative_index_no_failure :
    BernoulliBandit.step ⟨[(1 : ℚ)]⟩ (-1) 0 = some 1 := by
  decide

/-- C3 amended: calling the Bernoulli bandit simulator's step (plain class or
Gym environment) with `arm_index ≥ k` or `arm_index < -k` fails with an
IndexError; in particular `arm_index = k` fails for every `k ≥ 1`. Indices in
`[-k, -1]`, though outside `[0, k)`, are silently accepted (see C9). -/
theorem step_out_of_range_fails (p : List ℚ) (action : ℤ) (u : ℚ) (h c : ℕ)
    (hout : (p.length : ℤ) ≤ action ∨ action < -(p.length : ℤ)) :
    BernoulliBandit.step ⟨p⟩ action u = none ∧
    BernoulliBanditEnv.step ⟨p, h, c⟩ action u = none := by
  have hnone : npGet p action = none := by
    unfold npGet
    rcases hout with hge | hlt
    · rw [if_pos (by omega)]
      exact List.getElem?_eq_none (by omega)
    · rw [if_neg (by omega), if_neg (by omega)]
  constructor
  · show (npGet p action).map _ = none
    rw [hnone]
    rfl
  · show (npGet p action).map _ = none
    rw [hnone]
    rfl

theorem step_out_of_range_fails_witness :
    ((List.length [(1 : ℚ)] : ℤ) ≤ 1 ∨ (1 : ℤ) < -(List.length [(1 : ℚ)] : ℤ)) ∧
    (BernoulliBandit.step ⟨[(1 : ℚ)]⟩ 1 0 = none ∧
      BernoulliBanditEnv.step ⟨[(1 : ℚ)], 10, 0⟩ 1 0 = none) :=
  ⟨by decide, step_out_of_range_fails [(1 : ℚ)] 1 0 10 0 (by decide)⟩

/-- C9: for every `k ≥ 1` and every `arm_index` in `[-k, -1]`, the plain
simulator's step does not fail: numpy's negative indexing reads
`p[k + arm_index]` and the call returns normally with a reward in `{0,1}`
drawn against that probability, even though the index is outside `[0, k)`. -/
theorem step_negative_index_succeeds (p : List ℚ) (action : ℤ) (u : ℚ)
    (h1 : -(p.length : ℤ) ≤ action) (h2 : action < 0) :
    BernoulliBandit.step ⟨p⟩ action u
      = some (if u < p.getD ((p.length : ℤ) + action).toNat 0 then 1 else 0) ∧
    ∀ r : ℕ, BernoulliBandit.step ⟨p⟩ action u = some r → r = 0 ∨ r = 1 := by
  have hnn : 0 ≤ (p.length : ℤ) + action := by omega
  have hlt : ((p.length : ℤ) + action).toNat < p.length := by omega
  have hget : npGet p action = some (p.getD ((p.length : ℤ) + action).toNat 0) := by
    unfold npGet
    rw [if_neg (by omega), if_pos hnn]
    simp [List.getElem?_eq_getElem hlt, List.getD_eq_getElem?_getD]
  have hstep : BernoulliBandit.step ⟨p⟩ action u
      = some (if u < p.getD ((p.length : ℤ) + action).toNat 0 then 1 else 0) := by
    show (npGet p action).map _ = _
    rw [hget]
    rfl
  refine ⟨hstep, ?_⟩
  intro r hr
  rw [hstep] at hr
  have hr2 := Option.some.inj hr
  split at hr2
  · right
    omega
  · left
    omega

/-- C4: for every run of either strategy, the per-arm selection counts sum to
the number of rounds executed: epsilon-greedy's stored `N` sums to the round
count, and for Thompson sampling (which stores no count vector) the per-arm
selection counts of the run record sum to the round count. -/
theorem count_invariant (eps : ℚ) (p : List ℚ) (draws : List Draw)
    (clickProb : ℕ → List ℚ → ℚ) (k : ℕ) (tdraws : List TSDraw)
    (hk : 1 ≤ p.length) (hidx : ∀ d ∈ draws, d.idx < p.length)
    (hk2 : 1 ≤ k) (hs : ∀ d ∈ tdraws, d.samples.length = k) :
    (egRun eps p draws).N.sum = draws.length ∧
    Finset.sum (Finset.range k)
        (fun i => armSelections i (tsRun clickProb k tdraws).hist)
      = tdraws.length := by
  constructor
  · have hinv := egRun_inv eps p draws hk hidx
    rw [hinv.2.2.1, egRun_hist_length]
  · have hinv := tsRun_inv clickProb k tdraws hk2 hs
    rw [sum_armSelections k _ (fun pr hpr => (hinv.2.2.1 pr hpr).1), tsRun_hist_length]

theorem count_invariant_witness :
    (1 ≤ List.length [(1 : ℚ)] ∧ (∀ d ∈ [Draw.mk 0 0 0], d.idx < List.length [(1 : ℚ)]) ∧
      1 ≤ 1 ∧ (∀ d ∈ [TSDraw.mk [] [(1 : ℚ)] 0], d.samples.length = 1)) ∧
    ((egRun 1 [1] [Draw.mk 0 0 0]).N.sum = 1 ∧
      Finset.sum (Finset.range 1)
          (fun i => armSelections i
            (tsRun (fun _ _ => (0 : ℚ)) 1 [TSDraw.mk [] [(1 : ℚ)] 0]).hist)
        = 1) :=
  ⟨⟨by decide, by decide, by decide, by decide⟩,
    count_invariant 1 [1] [Draw.mk 0 0 0] (fun _ _ => (0 : ℚ)) 1
      [TSDraw.mk [] [(1 : ℚ)] 0] (by decide) (by decide) (by decide) (by decide)⟩

/-- C5: the Thompson-sampling update increments `alpha[arm]` on reward 1 and
`beta[arm]` otherwise (see `tsUpdate`), both initialized to 1 for every arm;
consequently, after any run, `alpha[i] + beta[i]` equals 2 plus the number of
times arm `i` was selected, for every arm `i`. -/
theorem thompson_posterior_pseudocounts (clickProb : ℕ → List ℚ → ℚ) (k : ℕ)
    (tdraws : List TSDraw) (hk : 1 ≤ k) (hs : ∀ d ∈ tdraws, d.samples.length = k) :
    ∀ i, i < k →
      (tsRun clickProb k tdraws).alpha.getD i 0 + (tsRun clickProb k tdraws).beta.getD i 0
        = 2 + armSelections i (tsRun clickProb k tdraws).hist :=
  fun i hi => (tsRun_inv clickProb k tdraws hk hs).2.2.2 i hi

theorem thompson_posterior_pseudocounts_witness :
    (1 ≤ 1 ∧ (∀ d ∈ [TSDraw.mk [] [(1 : ℚ)] 0], d.samples.length = 1)) ∧
    (∀ i, i < 1 →
      (tsRun (fun _ _ => (1 : ℚ)) 1 [TSDraw.mk [] [(1 : ℚ)] 0]).alpha.getD i 0 +
          (tsRun (fun _ _ => (1 : ℚ)) 1 [TSDraw.mk [] [(1 : ℚ)] 0]).beta.getD i 0
        = 2 + armSelections i
            (tsRun (fun _ _ => (1 : ℚ)) 1 [TSDraw.mk [] [(1 : ℚ)] 0]).hist) :=
  ⟨⟨by decide, by decide⟩,
    thompson_posterior_pseudocounts (fun _ _ => (1 : ℚ)) 1
      [TSDraw.mk [] [(1 : ℚ)] 0] (by decide) (by decide)⟩

/-- C6: for an in-range arm, the simulator's step draws one uniform value `u`
and returns reward 1 if `u < p[arm_index]`, else 0; the call consumes exactly
one draw from the shared random source (the cursor advances by one, the
stream itself is unchanged), and the reward is always 0 or 1. -/
theorem step_consumes_one_draw (p : List ℚ) (a : ℕ) (g : RandState)
    (ha : a < p.length) :
    BernoulliBandit.stepR ⟨p⟩ (a : ℤ) g =
      some (if g.stream g.cursor < p.getD a 0 then 1 else 0,
        RandState.mk g.stream (g.cursor + 1)) ∧
    ((if g.stream g.cursor < p.getD a 0 then (1 : ℕ) else 0) = 0 ∨
      (if g.stream g.cursor < p.getD a 0 then (1 : ℕ) else 0) = 1) := by
  constructor
  · show (npGet p (a : ℤ)).map _ = _
    rw [npGet_in_range p a ha]
    rfl
  · split
    · right
      rfl
    · left
      rfl

theorem step_consumes_one_draw_witness :
    0 < List.length [(1 : ℚ)] ∧
    (BernoulliBandit.stepR ⟨[(1 : ℚ)]⟩ 0 (RandState.mk (fun _ => 0) 5) =
        some (if (0 : ℚ) < List.getD [(1 : ℚ)] 0 0 then 1 else 0,
          RandState.mk (fun _ => 0) 6) ∧
      ((if (0 : ℚ) < List.getD [(1 : ℚ)] 0 0 then (1 : ℕ) else 0) = 0 ∨
        (if (0 : ℚ) < List.getD [(1 : ℚ)] 0 0 then (1 : ℕ) else 0) = 1)) :=
  ⟨by decide, step_consumes_one_draw [(1 : ℚ)] 0 (RandState.mk (fun _ => 0) 5) (by decide)⟩

/-- The outputs of successive calls to the plain `BernoulliBandit.step` with
the given per-call uniform draws: the class is stateless, so each output is a
function of the probabilities, the action and that call's draw alone. -/
def plainOutputs (b : BernoulliBandit) (a : ℤ) (us : List ℚ) : List (Option ℕ) :=
  us.map (b.step a)

/-- C7 counterexample: the plain `BernoulliBandit` — one of the repository's
bandit simulators — is constructed with no horizon and keeps no step counter;
its step returns a bare reward with no done flag, so three successive calls
(crossing any horizon, e.g. 2) produce identical bare-reward outputs and no
call ever signals episode completion, refuting the claim for this simulator. -/
theorem plain_bandit_no_completion_signal :
    plainOutputs ⟨[(0 : ℚ)]⟩ 0 [0, 0, 0] = [some 0, some 0, some 0] := by
  decide

/-- C7 amended: the Gym-wrapped simulator `BernoulliBanditEnv` maintains the
internal step counter `current_step`; after a reset, the `done` flag of its
j-th step call (1-indexed) is true exactly when j has reached `num_steps`
(and stays true beyond it), its step returns the 5-tuple
`(obs, reward, done, truncated, info)` with `truncated` always false, and a
step mutates no state besides the counter. The plain `BernoulliBandit` keeps
no counter and returns only the reward; its horizon is enforced by the
driver loop. -/
theorem env_done_iff_horizon (p : List ℚ) (h c : ℕ) (ins : List (ℤ × ℚ))
    (hin : ∀ au ∈ ins, 0 ≤ au.1 ∧ au.1 < (p.length : ℤ)) :
    (∃ ds : List Bool,
      envDones (BernoulliBanditEnv.reset ⟨p, h, c⟩).2 ins = some ds ∧
      ds.length = ins.length ∧
      (∀ j, j < ds.length → (ds.getD j false = true ↔ h ≤ j + 1))) ∧
    (∀ (env : BernoulliBanditEnv) (action : ℤ) (u : ℚ) (out : StepOut),
      env.step action u = some out →
      out.env.p = env.p ∧ out.env.num_steps = env.num_steps ∧
      out.env.current_step = env.current_step + 1 ∧ out.truncated = false) := by
  constructor
  · obtain ⟨ds, hds, hlen, hspec⟩ := envDones_spec p h 0 ins hin
    refine ⟨ds, hds, hlen, ?_⟩
    intro j hj
    rw [hspec j hj]
    simp
  · intro env action u out hstep
    unfold BernoulliBanditEnv.step at hstep
    cases hnp : npGet env.p action with
    | none =>
      rw [hnp] at hstep
      simp at hstep
    | some pa =>
      rw [hnp, Option.map_some'] at hstep
      have hout := Option.some.inj hstep
      rw [← hout]
      exact ⟨rfl, rfl, rfl, rfl⟩

theorem env_done_iff_horizon_witness :
    (∀ au ∈ [((0 : ℤ), (0 : ℚ)), (0, 0), (0, 0)],
      0 ≤ au.1 ∧ au.1 < (List.length [(1 : ℚ)] : ℤ)) ∧
    ((∃ ds : List Bool,
        envDones (BernoulliBanditEnv.reset ⟨[(1 : ℚ)], 2, 7⟩).2
            [((0 : ℤ), (0 : ℚ)), (0, 0), (0, 0)] = some ds ∧
        ds.length = List.length [((0 : ℤ), (0 : ℚ)), (0, 0), (0, 0)] ∧
        (∀ j, j < ds.length → (ds.getD j false = true ↔ 2 ≤ j + 1))) ∧
      (∀ (env : BernoulliBanditEnv) (action : ℤ) (u : ℚ) (out : StepOut),
        env.step action u = some out →
        out.env.p = env.p ∧ out.env.num_steps = env.num_steps ∧
        out.env.current_step = env.current_step + 1 ∧ out.truncated = false)) :=
  ⟨by decide,
    env_done_iff_horizon [(1 : ℚ)] 2 7 [((0 : ℤ), (0 : ℚ)), (0, 0), (0, 0)] (by decide)⟩

/-- C8: when `k = 1`, both strategies select arm 0 on every round: every round
of an epsilon-greedy run (random branch and argmax branch alike) and every
round of a Thompson-sampling run records chosen arm 0. -/
theorem k_one_selects_arm_zero (eps : ℚ) (p : List ℚ) (draws : List Draw)
    (clickProb : ℕ → List ℚ → ℚ) (tdraws : List TSDraw)
    (hp : p.length = 1) (hidx : ∀ d ∈ draws, d.idx < 1)
    (hs : ∀ d ∈ tdraws, d.samples.length = 1) :
    (∀ pr ∈ (egRun eps p draws).hist, pr.1 = 0) ∧
    (∀ pr ∈ (tsRun clickProb 1 tdraws).hist, pr.1 = 0) := by
  constructor
  · have hinv := egRun_inv eps p draws (by omega) (by simpa [hp] using hidx)
    intro pr hpr
    have h1 := (hinv.2.2.2.1 pr hpr).1
    omega
  · have hinv := tsRun_inv clickProb 1 tdraws (by omega) hs
    intro pr hpr
    have h1 := (hinv.2.2.1 pr hpr).1
    omega

theorem k_one_selects_arm_zero_witness :
    (List.length [(1 : ℚ)] = 1 ∧ (∀ d ∈ [Draw.mk 0 0 0], d.idx < 1) ∧
      (∀ d ∈ [TSDraw.mk [] [(1 : ℚ)] 0], d.samples.length = 1)) ∧
    ((∀ pr ∈ (egRun 0 [(1 : ℚ)] [Draw.mk 0 0 0]).hist, pr.1 = 0) ∧
      (∀ pr ∈ (tsRun (fun _ _ => (0 : ℚ)) 1 [TSDraw.mk [] [(1 : ℚ)] 0]).hist, pr.1 = 0)) :=
  ⟨⟨by decide, by decide, by decide⟩,
    k_one_selects_arm_zero 0 [(1 : ℚ)] [Draw.mk 0 0 0] (fun _ _ => (0 : ℚ))
      [TSDraw.mk [] [(1 : ℚ)] 0] (by decide) (by decide) (by decide)⟩

/-- C10: throughout every epsilon-greedy run on a Bernoulli bandit — i.e.
after the prefix of rounds already executed, for every prefix — every estimate
`Q[i]` lies in `[0, 1]`, and `Q[i] = 0` for every arm that has never been
pulled; each round's update preserves this. -/
theorem eg_Q_bounded (eps : ℚ) (p : List ℚ) (draws pre suf : List Draw)
    (hk : 1 ≤ p.length) (hidx : ∀ d ∈ draws, d.idx < p.length)
    (hsplit : draws = pre ++ suf) :
    ∀ i : ℕ, 0 ≤ (egRun eps p pre).Q.getD i 0 ∧ (egRun eps p pre).Q.getD i 0 ≤ 1 ∧
      ((egRun eps p pre).N.getD i 0 = 0 → (egRun eps p pre).Q.getD i 0 = 0) := by
  have hidx2 : ∀ d ∈ pre, d.idx < p.length := by
    intro d hd
    refine hidx d ?_
    rw [hsplit]
    exact List.mem_append_left suf hd
  obtain ⟨hQl, hNl, hsum, hhist, hN, hQN, hQ0, hQb⟩ := egRun_inv eps p pre hk hidx2
  intro i
  exact ⟨(hQb i).1, (hQb i).2, hQ0 i⟩

theorem eg_Q_bounded_witness :
    (1 ≤ List.length [(1 : ℚ)] ∧
      (∀ d ∈ [Draw.mk 0 0 0, Draw.mk 0 0 0], d.idx < List.length [(1 : ℚ)]) ∧
      [Draw.mk 0 0 0, Draw.mk 0 0 0] = [Draw.mk 0 0 0] ++ [Draw.mk 0 0 0]) ∧
    (∀ i : ℕ, 0 ≤ (egRun 0 [(1 : ℚ)] [Draw.mk 0 0 0]).Q.getD i 0 ∧
      (egRun 0 [(1 : ℚ)] [Draw.mk 0 0 0]).Q.getD i 0 ≤ 1 ∧
      ((egRun 0 [(1 : ℚ)] [Draw.mk 0 0 0]).N.getD i 0 = 0 →
        (egRun 0 [(1 : ℚ)] [Draw.mk 0 0 0]).Q.getD i 0 = 0)) :=
  ⟨⟨by decide, by decide, by rfl⟩,
    eg_Q_bounded 0 [(1 : ℚ)] [Draw.mk 0 0 0, Draw.mk 0 0 0] [Draw.mk 0 0 0]
      [Draw.mk 0 0 0] (by decide) (by decide) (by rfl)⟩

theorem step_negative_index_succeeds_witness :
    (-(List.length [(0 : ℚ), 1] : ℤ) ≤ -1 ∧ (-1 : ℤ) < 0) ∧
    (BernoulliBandit.step ⟨[(0 : ℚ), 1]⟩ (-1) 0
        = some (if (0 : ℚ) < List.getD [(0 : ℚ), 1]
            ((List.length [(0 : ℚ), 1] : ℤ) + -1).toNat 0 then 1 else 0) ∧
      ∀ r : ℕ, BernoulliBandit.step ⟨[(0 : ℚ), 1]⟩ (-1) 0 = some r →
        r = 0 ∨ r = 1) :=
  ⟨⟨by decide, by decide⟩,
    step_negative_index_succeeds [(0 : ℚ), 1] (-1) 0 (by decide) (by decide)⟩

end Bandits
